import Mathlib

/-!
Shallow embedding of `src/tracker.py` (an incident-feed status tracker) and
proofs about it.  Text is modelled as `List Char`; Python's `re` operations
used by the source are modelled by explicit character scanners that follow
the engine's leftmost / lazy / greedy behaviour of the concrete patterns in
the source.  Fallible fetching is modelled by an attempt-indexed oracle.
-/

namespace Tracker

/-- Python whitespace test used by `str.strip()` (ASCII range, which is all
the source's data contains). -/
def pyWS (c : Char) : Bool :=
  c == ' ' || c == '\t' || c == '\n' || c == '\r' || c.toNat == 11 || c.toNat == 12

/-- Drop leading whitespace (left half of Python `str.strip()`). -/
def trimL (l : List Char) : List Char := l.dropWhile pyWS

/-- Drop trailing whitespace (right half of Python `str.strip()`). -/
def trimR (l : List Char) : List Char := (l.reverse.dropWhile pyWS).reverse

/-- Python `str.strip()`: drop leading and trailing whitespace. -/
def pyStrip (l : List Char) : List Char := trimR (trimL l)

theorem dropWhile_head_false {p : Char → Bool} {l : List Char} {x : Char}
    {xs : List Char} (h : l.dropWhile p = x :: xs) : p x = false := by
  induction l generalizing x xs with
  | nil => simp [List.dropWhile] at h
  | cons a t ih =>
    by_cases ha : p a
    · rw [List.dropWhile_cons, if_pos ha] at h; exact ih h
    · rw [List.dropWhile_cons, if_neg ha] at h
      cases h; simpa using ha

theorem dropWhile_eq_self_of_head {p : Char → Bool} {x : Char} {xs : List Char}
    (h : p x = false) : (x :: xs).dropWhile p = x :: xs := by
  rw [List.dropWhile_cons, if_neg (by simp [h])]

theorem dropWhile_idem (p : Char → Bool) (l : List Char) :
    (l.dropWhile p).dropWhile p = l.dropWhile p := by
  cases h : l.dropWhile p with
  | nil => simp
  | cons x xs => rw [← h, h, dropWhile_eq_self_of_head (dropWhile_head_false h)]

theorem exists_prefix_dropWhile (p : Char → Bool) (l : List Char) :
    ∃ s, l = s ++ l.dropWhile p := by
  induction l with
  | nil => exact ⟨[], rfl⟩
  | cons a t ih =>
    by_cases ha : p a
    · obtain ⟨s, hs⟩ := ih
      exact ⟨a :: s, by rw [List.dropWhile_cons, if_pos ha]; simpa using hs⟩
    · exact ⟨[], by rw [List.dropWhile_cons, if_neg ha]; rfl⟩

theorem mem_of_mem_dropWhile {p : Char → Bool} {l : List Char} {c : Char}
    (h : c ∈ l.dropWhile p) : c ∈ l := by
  obtain ⟨s, hs⟩ := exists_prefix_dropWhile p l
  rw [hs]; exact List.mem_append_right s h

theorem mem_of_mem_trimR {l : List Char} {c : Char} (h : c ∈ trimR l) : c ∈ l := by
  unfold trimR at h
  rw [List.mem_reverse] at h
  have h1 := mem_of_mem_dropWhile h
  rwa [List.mem_reverse] at h1

theorem mem_of_mem_pyStrip {l : List Char} {c : Char} (h : c ∈ pyStrip l) : c ∈ l :=
  mem_of_mem_dropWhile (mem_of_mem_trimR h)

theorem trimR_prefix (l : List Char) : ∃ s, l = trimR l ++ s := by
  obtain ⟨s, hs⟩ := exists_prefix_dropWhile pyWS l.reverse
  refine ⟨s.reverse, ?_⟩
  have := congrArg List.reverse hs
  simpa [trimR] using this

theorem trimR_idem (l : List Char) : trimR (trimR l) = trimR l := by
  unfold trimR
  simp [List.reverse_reverse, dropWhile_idem]

theorem trimL_trimR_trimL (l : List Char) : trimL (trimR (trimL l)) = trimR (trimL l) := by
  cases h : trimR (trimL l) with
  | nil => simp [trimL, List.dropWhile]
  | cons x xs =>
    -- the head of `trimR (trimL l)` is the head of `trimL l`, hence non-whitespace
    obtain ⟨s, hs⟩ := trimR_prefix (trimL l)
    rw [h] at hs
    have hx : pyWS x = false :=
      dropWhile_head_false (p := pyWS) (l := l) (by simpa [trimL] using hs)
    have hself : (x :: xs).dropWhile pyWS = x :: xs := dropWhile_eq_self_of_head hx
    simpa [trimL] using hself

theorem pyStrip_idem (l : List Char) : pyStrip (pyStrip l) = pyStrip l := by
  unfold pyStrip
  rw [trimL_trimR_trimL, trimR_idem]

theorem dropWhile_eq_nil_of_all {p : Char → Bool} :
    ∀ {l : List Char}, (∀ c ∈ l, p c = true) → l.dropWhile p = [] := by
  intro l
  induction l with
  | nil => intro _; rfl
  | cons a t ih =>
    intro h
    rw [List.dropWhile_cons, if_pos (by simpa using h a (by simp))]
    exact ih fun c hc => h c (by simp [hc])

theorem pyStrip_eq_nil_of_all_ws {l : List Char} (h : ∀ c ∈ l, pyWS c = true) :
    pyStrip l = [] := by
  unfold pyStrip trimL
  rw [dropWhile_eq_nil_of_all h]
  simp [trimR, List.dropWhile]

/-! ### The two tag-removal substitutions of the source

`clean_html` (line 49) performs Python `re.sub(r"<[^<]+?>", "", text).strip()`.
On the lazy pattern the engine, standing at a `<`, consumes one character
(which must not be `<`), then repeatedly: succeeds at the first `>`, fails at
a `<`, otherwise consumes.  `extract_components` (line 55) instead removes
`re.sub(r"<[^>]+>", "", item)`: at a `<` the greedy class `[^>]+` needs at
least one non-`>` character and the match then ends at the first following
`>`.  Both engines restart one character later after a failed attempt and
immediately after the end of a removed match. -/

/-- After `<c1` of a lazy `<[^<]+?>` candidate: succeed at the first `>`,
fail at a `<`.  Returns the suffix after the closing `>`. -/
def scanClose : List Char → Option (List Char)
  | [] => none
  | c :: t => if c == '>' then some t else if c == '<' then none else scanClose t

/-- Match of `[^<]+?>` right after a `<` (lazy pattern of `clean_html`). -/
def findTag : List Char → Option (List Char)
  | [] => none
  | c :: t => if c == '<' then none else scanClose t

/-- After `<c1` of a greedy `<[^>]+>` candidate: succeed at the first `>`. -/
def scanClose2 : List Char → Option (List Char)
  | [] => none
  | c :: t => if c == '>' then some t else scanClose2 t

/-- Match of `[^>]+>` right after a `<` (greedy pattern of
`extract_components`). -/
def findTag2 : List Char → Option (List Char)
  | [] => none
  | c :: t => if c == '>' then none else scanClose2 t

/-- Fuelled left-to-right removal of all `<[^<]+?>` matches.  The fuel only
drives the recursion; `stripTags` supplies enough for any input. -/
def stripTagsF : Nat → List Char → List Char
  | 0, l => l
  | _ + 1, [] => []
  | fuel + 1, c :: t =>
    if c == '<' then
      match findTag t with
      | some r => stripTagsF fuel r
      | none => c :: stripTagsF fuel t
    else c :: stripTagsF fuel t

/-- Fuelled left-to-right removal of all `<[^>]+>` matches. -/
def stripTags2F : Nat → List Char → List Char
  | 0, l => l
  | _ + 1, [] => []
  | fuel + 1, c :: t =>
    if c == '<' then
      match findTag2 t with
      | some r => stripTags2F fuel r
      | none => c :: stripTags2F fuel t
    else c :: stripTags2F fuel t

/-- Python `re.sub(r"<[^<]+?>", "", l)`. -/
def stripTags (l : List Char) : List Char := stripTagsF (l.length + 1) l

/-- Python `re.sub(r"<[^>]+>", "", l)`. -/
def stripTags2 (l : List Char) : List Char := stripTags2F (l.length + 1) l

/-- `clean_html` from the source: remove all `<[^<]+?>` matches, then strip. -/
def clean_html (text : List Char) : List Char := pyStrip (stripTags text)

/-- The text contains a substring in the language of the tag pattern
`<[^<]+?>`: a `<`, then at least one character none of which is `<`, then
a `>`. -/
def HasTagMatch (l : List Char) : Prop :=
  ∃ pre mid post, l = pre ++ '<' :: (mid ++ '>' :: post) ∧ mid ≠ [] ∧ '<' ∉ mid

theorem HasTagMatch.lt_mem {l : List Char} (h : HasTagMatch l) : '<' ∈ l := by
  obtain ⟨pre, mid, post, rfl, -, -⟩ := h
  simp

/-! ### Well-formed (simple) markup

`simpleTags` holds when every `<` in the text opens a tag of the shape
`<x…x>` whose body is non-empty and contains neither `<` nor `>`.  On such
input the two substitution patterns of the source find exactly the same
matches; outside it they can differ (see the counterexamples below). -/

/-- Body of a simple tag right after its `<`: at least one character that is
neither `<` nor `>`, then the closing `>`.  Returns the suffix after it. -/
def tagBody : List Char → Option (List Char)
  | [] => none
  | c :: t => if c == '<' || c == '>' then none else scanClose t

/-- Fuelled scan checking that every `<` opens a simple tag. -/
def simpleTagsF : Nat → List Char → Bool
  | 0, l => l.isEmpty
  | _ + 1, [] => true
  | fuel + 1, c :: t =>
    if c == '<' then
      match tagBody t with
      | some r => simpleTagsF fuel r
      | none => false
    else simpleTagsF fuel t

/-- Every `<` in `l` opens a simple tag `<x…x>` (body non-empty, free of
`<` and `>`). -/
def simpleTags (l : List Char) : Bool := simpleTagsF (l.length + 1) l

theorem scanClose_scanClose2 {t r : List Char} (h : scanClose t = some r) :
    scanClose2 t = some r := by
  induction t generalizing r with
  | nil => simp [scanClose] at h
  | cons c t ih =>
    by_cases hgt : c == '>'
    · rw [scanClose, if_pos hgt] at h
      rw [scanClose2, if_pos hgt]; exact h
    · rw [scanClose, if_neg hgt] at h
      by_cases hlt : c == '<'
      · rw [if_pos hlt] at h; exact absurd h (by simp)
      · rw [if_neg hlt] at h
        rw [scanClose2, if_neg hgt]; exact ih h

theorem tagBody_findTag {t r : List Char} (h : tagBody t = some r) :
    findTag t = some r := by
  cases t with
  | nil => simp [tagBody] at h
  | cons c t =>
    rw [tagBody] at h
    by_cases hb : c == '<' || c == '>'
    · rw [if_pos hb] at h; exact absurd h (by simp)
    · rw [if_neg hb] at h
      have hlt : (c == '<') = false := by
        cases hc : c == '<' <;> simp [hc] at hb ⊢
      rw [findTag, hlt]; simpa using h

theorem tagBody_findTag2 {t r : List Char} (h : tagBody t = some r) :
    findTag2 t = some r := by
  cases t with
  | nil => simp [tagBody] at h
  | cons c t =>
    rw [tagBody] at h
    by_cases hb : c == '<' || c == '>'
    · rw [if_pos hb] at h; exact absurd h (by simp)
    · rw [if_neg hb] at h
      have hgt : (c == '>') = false := by
        cases hc : c == '>' <;> simp [hc] at hb ⊢
      rw [findTag2, hgt]
      simpa using scanClose_scanClose2 h

theorem simpleTagsF_strip {fuel : Nat} : ∀ {l : List Char},
    simpleTagsF fuel l = true →
    stripTagsF fuel l = stripTags2F fuel l ∧ '<' ∉ stripTagsF fuel l := by
  induction fuel with
  | zero =>
    intro l h
    have : l = [] := by simpa [simpleTagsF] using h
    subst this
    exact ⟨rfl, by simp [stripTagsF]⟩
  | succ fuel ih =>
    intro l h
    cases l with
    | nil => exact ⟨rfl, by simp [stripTagsF]⟩
    | cons c t =>
      by_cases hc : c == '<'
      · rw [simpleTagsF, if_pos hc] at h
        cases hbody : tagBody t with
        | none => rw [hbody] at h; exact absurd h (by simp)
        | some r =>
          rw [hbody] at h
          have h1 := tagBody_findTag hbody
          have h2 := tagBody_findTag2 hbody
          rw [stripTagsF, if_pos hc, h1, stripTags2F, if_pos hc, h2]
          exact ih h
      · rw [simpleTagsF, if_neg hc] at h
        obtain ⟨heq, hmem⟩ := ih h
        rw [stripTagsF, if_neg hc, stripTags2F, if_neg hc, heq]
        refine ⟨rfl, ?_⟩
        rw [← heq]
        intro hin
        rcases List.mem_cons.1 hin with h' | h'
        · exact absurd (beq_iff_eq.2 h'.symm) (by simpa using hc)
        · exact hmem h'

theorem simpleTags_strip_eq {l : List Char} (h : simpleTags l = true) :
    stripTags l = stripTags2 l :=
  (simpleTagsF_strip h).1

theorem simpleTags_no_lt {l : List Char} (h : simpleTags l = true) :
    '<' ∉ stripTags l :=
  (simpleTagsF_strip h).2

theorem stripTagsF_no_lt {fuel : Nat} : ∀ {l : List Char},
    '<' ∉ l → stripTagsF fuel l = l := by
  induction fuel with
  | zero => intro l _; rfl
  | succ fuel ih =>
    intro l h
    cases l with
    | nil => rfl
    | cons c t =>
      have hc : (c == '<') = false := by
        cases hc' : c == '<'
        · rfl
        · have : c = '<' := beq_iff_eq.1 hc'
          subst this
          exact absurd (List.mem_cons_self '<' t) h
      rw [stripTagsF, hc]
      simp only [Bool.false_eq_true, if_false]
      rw [ih fun h' => h (List.mem_cons_of_mem c h')]

theorem stripTags_no_lt {l : List Char} (h : '<' ∉ l) : stripTags l = l :=
  stripTagsF_no_lt h

theorem clean_html_no_lt {l : List Char} (h : simpleTags l = true) :
    '<' ∉ clean_html l :=
  fun hin => simpleTags_no_lt h (mem_of_mem_pyStrip hin)

theorem clean_html_idem_of_simple {l : List Char} (h : simpleTags l = true) :
    clean_html (clean_html l) = clean_html l := by
  unfold clean_html
  rw [stripTags_no_lt (l := pyStrip (stripTags l))
    (fun hin => simpleTags_no_lt h (mem_of_mem_pyStrip hin))]
  exact pyStrip_idem _

/-! ### Component extraction

`extract_components` (lines 53-55) runs `re.findall(r"<li>(.*?)</li>", html,
re.DOTALL)` and then maps `re.sub(r"<[^>]+>", "", item).strip()` over the
raw items whose raw text is non-blank.  `findall` on this pattern scans left
to right: at a literal `<li>` the lazy group captures up to the *first*
following `</li>`; a `<li>` without a later `</li>` does not match and the
scan resumes one character further. -/

/-- Does the text start with the literal open tag of the item pattern? -/
def liOpen (l : List Char) : Bool := decide (l.take 4 = ['<', 'l', 'i', '>'])

/-- Does the text start with the literal close tag of the item pattern? -/
def liClose (l : List Char) : Bool := decide (l.take 5 = ['<', '/', 'l', 'i', '>'])

/-- Split at the first occurrence of the close tag: returns the characters
before it and the suffix after it, or `none` when it never occurs. -/
def splitAtClose : List Char → Option (List Char × List Char)
  | [] => none
  | c :: t =>
    if liClose (c :: t) then some ([], (c :: t).drop 5)
    else
      match splitAtClose t with
      | some (con, rest) => some (c :: con, rest)
      | none => none

/-- Fuelled scan collecting the captures of `<li>(.*?)</li>` in order. -/
def findLIF : Nat → List Char → List (List Char)
  | 0, _ => []
  | _ + 1, [] => []
  | fuel + 1, c :: t =>
    match (if liOpen (c :: t) then splitAtClose (t.drop 3) else none) with
    | some (con, rest) => con :: findLIF fuel rest
    | none => findLIF fuel t

/-- Python `re.findall(r"<li>(.*?)</li>", l, re.DOTALL)`. -/
def findLI (l : List Char) : List (List Char) := findLIF (l.length + 1) l

/-- `extract_components` from the source: the filter tests the *raw* matched
item, while the returned string is the tag-stripped and trimmed item. -/
def extract_components (html : List Char) : List (List Char) :=
  ((findLI html).filter fun item => !(pyStrip item).isEmpty).map
    fun item => pyStrip (stripTags2 item)

theorem findLIF_eq_nil_of_no_lt {fuel : Nat} : ∀ {l : List Char},
    '<' ∉ l → findLIF fuel l = [] := by
  induction fuel with
  | zero => intro l _; rfl
  | succ fuel ih =>
    intro l h
    cases l with
    | nil => rfl
    | cons c t =>
      have hc : c ≠ '<' := fun h' => h (h' ▸ List.mem_cons_self c t)
      have hopen : liOpen (c :: t) = false := by
        simp only [liOpen, List.take_succ_cons, decide_eq_false_iff_not]
        intro h'
        exact hc (List.cons.injEq .. ▸ h').1
      rw [findLIF, hopen]
      simp only [Bool.false_eq_true, if_false]
      exact ih fun h' => h (List.mem_cons_of_mem c h')

theorem extract_components_of_no_lt {l : List Char} (h : '<' ∉ l) :
    extract_components l = [] := by
  unfold extract_components findLI
  rw [findLIF_eq_nil_of_no_lt h]
  rfl

/-! ### Status line extraction -/

/-- Python `str.split("\n")`: split at every newline, keeping empty pieces. -/
def splitNL : List Char → List (List Char)
  | [] => [[]]
  | c :: t =>
    if c == '\n' then [] :: splitNL t
    else
      match splitNL t with
      | [] => [[c]]
      | g :: gs => (c :: g) :: gs

/-- `extract_status_line` from the source: trim every line, drop the blank
ones and return the last survivor; fall back to the trimmed input. -/
def extract_status_line (clean_summary : List Char) : List Char :=
  let lines := ((splitNL clean_summary).map pyStrip).filter fun l => !l.isEmpty
  match lines.getLast? with
  | some last => last
  | none => pyStrip clean_summary

theorem splitNL_ne_nil (l : List Char) : splitNL l ≠ [] := by
  cases l with
  | nil => simp [splitNL]
  | cons c t =>
    rw [splitNL]
    by_cases hc : c == '\n'
    · rw [if_pos hc]; simp
    · rw [if_neg hc]
      cases splitNL t <;> simp

theorem splitNL_append (a b : List Char) :
    splitNL (a ++ '\n' :: b) = splitNL a ++ splitNL b := by
  induction a with
  | nil => simp [splitNL]
  | cons c t ih =>
    by_cases hc : c == '\n'
    · have : c = '\n' := beq_iff_eq.1 hc
      subst this
      simp only [List.cons_append, splitNL, if_pos (by rfl : ('\n' == '\n') = true),
        List.append_eq]
      rw [ih]
    · simp only [List.cons_append, splitNL, if_neg hc, List.append_eq]
      rw [ih]
      cases hsp : splitNL t with
      | nil => exact absurd hsp (splitNL_ne_nil t)
      | cons g gs => simp

theorem mem_splitNL_mem {cs g : List Char} {c : Char}
    (hg : g ∈ splitNL cs) (hc : c ∈ g) : c ∈ cs := by
  induction cs generalizing g with
  | nil =>
    simp [splitNL] at hg
    subst hg
    simp at hc
  | cons a t ih =>
    rw [splitNL] at hg
    by_cases ha : a == '\n'
    · rw [if_pos ha] at hg
      rcases List.mem_cons.1 hg with h' | h'
      · subst h'; simp at hc
      · exact List.mem_cons_of_mem a (ih h' hc)
    · rw [if_neg ha] at hg
      cases hsp : splitNL t with
      | nil => exact absurd hsp (splitNL_ne_nil t)
      | cons g0 gs =>
        rw [hsp] at hg
        rcases List.mem_cons.1 hg with h' | h'
        · subst h'
          rcases List.mem_cons.1 hc with h'' | h''
          · exact h'' ▸ List.mem_cons_self a t
          · exact List.mem_cons_of_mem a
              (ih (g := g0) (hsp ▸ List.mem_cons_self g0 gs) h'')
        · exact List.mem_cons_of_mem a (ih (hsp ▸ List.mem_cons_of_mem g0 h') hc)

theorem extract_status_line_all_ws {cs : List Char}
    (h : ∀ c ∈ cs, pyWS c = true) : extract_status_line cs = [] := by
  unfold extract_status_line
  have hfilter :
      (((splitNL cs).map pyStrip).filter fun l => !l.isEmpty) = [] := by
    rw [List.filter_eq_nil_iff]
    intro a ha
    obtain ⟨g, hg, rfl⟩ := List.mem_map.1 ha
    have : pyStrip g = [] :=
      pyStrip_eq_nil_of_all_ws fun c hc => h c (mem_splitNL_mem hg hc)
    simp [this]
  rw [hfilter]
  simp only [List.getLast?_nil]
  exact pyStrip_eq_nil_of_all_ws h

theorem extract_status_line_last {a b : List Char}
    (h : (((splitNL b).map pyStrip).filter fun l => !l.isEmpty) ≠ []) :
    extract_status_line (a ++ '\n' :: b) = extract_status_line b := by
  simp only [extract_status_line]
  rw [splitNL_append, List.map_append, List.filter_append,
    List.getLast?_append_of_ne_nil _ h]
  cases hlast : (((splitNL b).map pyStrip).filter fun l => !l.isEmpty).getLast? with
  | none =>
    rw [List.getLast?_eq_none_iff] at hlast
    exact absurd hlast h
  | some x => rfl

/-! ### Time formatting

`format_time` (lines 58-62) builds `datetime(*struct_time[:6], tzinfo=utc)`
and renders it in the fixed IST zone (UTC+5:30), i.e. shifted forward by
5 hours 30 minutes, as `YYYY-MM-DD HH:MM:SS`.  Valid calendar values are
assumed, as `datetime` would otherwise raise. -/

/-- First six fields of a feed `struct_time`: year, month, day, hour,
minute, second. -/
structure StructTime where
  year : Nat
  month : Nat
  day : Nat
  hour : Nat
  minute : Nat
  second : Nat
deriving DecidableEq

/-- Gregorian leap-year test. -/
def isLeap (y : Nat) : Bool := (y % 4 == 0 && !(y % 100 == 0)) || y % 400 == 0

/-- Number of days of month `m` of year `y`. -/
def daysInMonth (y m : Nat) : Nat :=
  if m = 2 then (if isLeap y then 29 else 28)
  else if m = 4 || m = 6 || m = 9 || m = 11 then 30
  else 31

/-- Zero-padded decimal rendering, as in `strftime`. -/
def padNum (width n : Nat) : List Char :=
  let s := Nat.toDigits 10 n
  List.replicate (width - s.length) '0' ++ s

/-- `format_time` from the source: `None` renders as the sentinel, otherwise
the UTC timestamp is shifted by +5:30 (with minute/hour/day carries) and
rendered as `YYYY-MM-DD HH:MM:SS`. -/
def format_time : Option StructTime → List Char
  | none => "Unknown time".toList
  | some t =>
    let mi0 := t.minute + 30
    let hh0 := t.hour + 5 + mi0 / 60
    let mi := mi0 % 60
    let dd := t.day + hh0 / 24
    let hh := hh0 % 24
    let ymd :=
      if dd > daysInMonth t.year t.month then
        if t.month = 12 then (t.year + 1, 1, 1) else (t.year, t.month + 1, 1)
      else (t.year, t.month, dd)
    padNum 4 ymd.1 ++ '-' :: padNum 2 ymd.2.1 ++ '-' :: padNum 2 ymd.2.2 ++
      ' ' :: padNum 2 hh ++ ':' :: padNum 2 mi ++ ':' :: padNum 2 t.second

/-! ### Data model: entries, feeds, events -/

/-- One feed entry as consumed by `watch_feed`: `entry.get("id")` (absent or
empty means the entry is skipped), `entry.get("summary", "")`, and the two
optional parsed timestamps. -/
structure Entry where
  eid : Option (List Char)
  summary : Option (List Char)
  updated : Option StructTime
  published : Option StructTime
deriving DecidableEq

/-- Result of one successful `feedparser.parse`: the bozo flag and the entry
sequence. -/
structure Feed where
  bozo : Bool
  entries : List Entry
deriving DecidableEq

/-- One emitted notification: the arguments of `print_event`. -/
structure Event where
  product : List Char
  status : List Char
  timestamp : List Char
deriving DecidableEq

/-- The identifier the watcher uses for an entry: `entry.get("id")` followed
by the falsiness test `if not eid` — `None` and `""` both yield no
identifier. -/
def getId (e : Entry) : Option (List Char) :=
  match e.eid with
  | none => none
  | some i => if i.isEmpty then none else some i

/-- The event built for a new entry (lines 136-144): product label from the
extracted components, status line from the cleaned summary, formatted
timestamp from `updated_parsed or published_parsed`. -/
def mkEvent (e : Entry) : Event :=
  let summary := e.summary.getD []
  let components := extract_components summary
  { product :=
      if components.isEmpty then "OpenAI Service".toList
      else "OpenAI API - ".toList ++ List.intercalate (", ".toList) components
    status := extract_status_line (clean_html summary)
    timestamp := format_time (match e.updated with
      | some t => some t
      | none => e.published) }

/-! ### The fetcher

`fetch_feed` (lines 76-98) attempts `feedparser.parse` up to `MAX_RETRIES`
times.  We model the fallible parse by an oracle giving each attempt's
outcome, and return, besides the result, the list of backoff waits performed
(in seconds) and the number of attempts made.  The `Option` result type is
the contract that no exception reaches the caller. -/

def MAX_RETRIES : Nat := 3

def RETRY_BACKOFF : Nat := 5

/-- The retry loop of `fetch_feed`, with `remaining` iterations left and the
1-based index of the current attempt.  A parsed feed flagged bozo returns
`None` immediately; an exception sleeps `RETRY_BACKOFF * attempt` when
attempts remain; exhaustion returns `None`. -/
def fetchAux (oracle : Nat → Except Unit Feed) : Nat → Nat → Option Feed × List Nat × Nat
  | 0, _ => (none, [], 0)
  | remaining + 1, attempt =>
    match oracle attempt with
    | .ok feed => if feed.bozo then (none, [], 1) else (some feed, [], 1)
    | .error _ =>
      let rest := fetchAux oracle remaining (attempt + 1)
      (rest.1, (if attempt < MAX_RETRIES then [RETRY_BACKOFF * attempt] else []) ++ rest.2.1,
        rest.2.2 + 1)

/-- `fetch_feed` from the source: run the attempts `1, …, MAX_RETRIES`. -/
def fetch_feed (oracle : Nat → Except Unit Feed) : Option Feed × List Nat × Nat :=
  fetchAux oracle MAX_RETRIES 1

/-! ### The watcher

`watch_feed` (lines 102-147) owns `seen_entries` (a set) and
`is_initialized`.  One loop iteration is `watchCycle`; a whole run is a fold
of cycles over the successive fetch results. -/

/-- Per-feed watcher state: `seen_entries` and `is_initialized`. -/
structure WState where
  seen : Finset (List Char)
  initFlag : Bool

/-- State at watcher start: empty seen-set, flag down. -/
def initState : WState := { seen := ∅, initFlag := false }

/-- Processing of one entry of the loop body: skip falsy ids; during the
baseline cycle record the id silently; afterwards skip seen ids and emit
exactly one event for a new id, inserting it first. -/
def stepEntry (initFlag : Bool) (seen : Finset (List Char)) (e : Entry) :
    Finset (List Char) × Option Event :=
  match getId e with
  | none => (seen, none)
  | some eid =>
    if initFlag = false then (insert eid seen, none)
    else if eid ∈ seen then (seen, none)
    else (insert eid seen, some (mkEvent e))

/-- The entry loop of one cycle, collecting emitted events in order. -/
def runEntries (initFlag : Bool) (seen : Finset (List Char)) :
    List Entry → Finset (List Char) × List Event
  | [] => (seen, [])
  | e :: es =>
    let p := stepEntry initFlag seen e
    let rest := runEntries initFlag p.1 es
    (rest.1, p.2.toList ++ rest.2)

/-- One iteration of the watch loop: an unavailable fetch mutates nothing
and emits nothing; a successful fetch runs the entry loop and raises the
initialized flag. -/
def watchCycle (st : WState) (fetched : Option Feed) : WState × List Event :=
  match fetched with
  | none => (st, [])
  | some feed =>
    let r := runEntries st.initFlag st.seen feed.entries
    ({ seen := r.1, initFlag := true }, r.2)

/-- A run of the watch loop over a list of successive fetch results. -/
def runCycles : WState → List (Option Feed) → WState × List Event
  | st, [] => (st, [])
  | st, f :: fs =>
    let p := watchCycle st f
    let q := runCycles p.1 fs
    (q.1, p.2 ++ q.2)

/-- Identifiers contributed by one feed snapshot. -/
def feedIds (f : Feed) : Finset (List Char) := (f.entries.filterMap getId).toFinset

/-- Identifiers contributed by a list of fetch results. -/
def cyclesIds : List (Option Feed) → Finset (List Char)
  | [] => ∅
  | none :: cs => cyclesIds cs
  | some f :: cs => feedIds f ∪ cyclesIds cs

/-! ### Watcher lemmas -/

theorem getId_some_ne_nil {e : Entry} {i : List Char} (h : getId e = some i) : i ≠ [] := by
  cases he : e.eid with
  | none => simp [getId, he] at h
  | some j =>
    by_cases hj : j.isEmpty
    · simp [getId, he, hj] at h
    · have hji : j = i := by simpa [getId, he, hj] using h
      subst hji
      simpa [List.isEmpty_iff] using hj

theorem stepEntry_of_none {initFlag : Bool} {seen : Finset (List Char)} {e : Entry}
    (h : getId e = none) : stepEntry initFlag seen e = (seen, none) := by
  simp [stepEntry, h]

theorem stepEntry_baseline {seen : Finset (List Char)} {e : Entry} {i : List Char}
    (h : getId e = some i) : stepEntry false seen e = (insert i seen, none) := by
  simp [stepEntry, h]

theorem stepEntry_seen {seen : Finset (List Char)} {e : Entry} {i : List Char}
    (h : getId e = some i) (hin : i ∈ seen) : stepEntry true seen e = (seen, none) := by
  simp [stepEntry, h, hin]

theorem stepEntry_new {seen : Finset (List Char)} {e : Entry} {i : List Char}
    (h : getId e = some i) (hout : i ∉ seen) :
    stepEntry true seen e = (insert i seen, some (mkEvent e)) := by
  simp [stepEntry, h, hout]

theorem runEntries_baseline (es : List Entry) : ∀ seen : Finset (List Char),
    runEntries false seen es = (seen ∪ (es.filterMap getId).toFinset, []) := by
  induction es with
  | nil => intro seen; simp [runEntries]
  | cons e es ih =>
    intro seen
    cases hid : getId e with
    | none =>
      simp only [runEntries, stepEntry_of_none hid, Option.toList, List.nil_append]
      rw [ih, List.filterMap_cons_none hid]
    | some i =>
      simp only [runEntries, stepEntry_baseline hid, Option.toList, List.nil_append]
      rw [ih, List.filterMap_cons_some hid]
      refine Prod.ext ?_ rfl
      simp only
      ext x
      simp only [Finset.mem_union, List.toFinset_cons, Finset.mem_insert]
      tauto

theorem runEntries_seen_eq (initFlag : Bool) (es : List Entry) :
    ∀ seen : Finset (List Char),
    (runEntries initFlag seen es).1 = seen ∪ (es.filterMap getId).toFinset := by
  induction es with
  | nil => intro seen; simp [runEntries]
  | cons e es ih =>
    intro seen
    cases hid : getId e with
    | none =>
      simp only [runEntries, stepEntry_of_none hid]
      rw [ih, List.filterMap_cons_none hid]
    | some i =>
      cases initFlag with
      | false =>
        simp only [runEntries, stepEntry_baseline hid]
        rw [ih, List.filterMap_cons_some hid]
        ext x
        simp only [Finset.mem_union, List.toFinset_cons, Finset.mem_insert]
        tauto
      | true =>
        by_cases hin : i ∈ seen
        · simp only [runEntries, stepEntry_seen hid hin]
          rw [ih, List.filterMap_cons_some hid]
          ext x
          simp only [Finset.mem_union, List.toFinset_cons, Finset.mem_insert]
          constructor
          · tauto
          · rintro (h' | h' | h')
            · exact Or.inl h'
            · exact Or.inl (h' ▸ hin)
            · exact Or.inr h'
        · simp only [runEntries, stepEntry_new hid hin]
          rw [ih, List.filterMap_cons_some hid]
          ext x
          simp only [Finset.mem_union, List.toFinset_cons, Finset.mem_insert]
          tauto

theorem sdiff_insert_not_mem {i : List Char} {T seen : Finset (List Char)}
    (hout : i ∉ seen) : insert i T \ seen = insert i (T \ insert i seen) := by
  ext x
  simp only [Finset.mem_sdiff, Finset.mem_insert]
  by_cases hx : x = i
  · subst hx; tauto
  · tauto

theorem runEntries_true_len (es : List Entry) : ∀ seen : Finset (List Char),
    (runEntries true seen es).2.length = ((es.filterMap getId).toFinset \ seen).card := by
  induction es with
  | nil => intro seen; simp [runEntries]
  | cons e es ih =>
    intro seen
    cases hid : getId e with
    | none =>
      simp only [runEntries, stepEntry_of_none hid, Option.toList, List.nil_append]
      rw [ih, List.filterMap_cons_none hid]
    | some i =>
      by_cases hin : i ∈ seen
      · simp only [runEntries, stepEntry_seen hid hin, Option.toList, List.nil_append]
        rw [ih, List.filterMap_cons_some hid, List.toFinset_cons]
        have hset : insert i (List.filterMap getId es).toFinset \ seen
            = (List.filterMap getId es).toFinset \ seen := by
          ext x
          simp only [Finset.mem_sdiff, Finset.mem_insert]
          constructor
          · rintro ⟨h' | h', h''⟩
            · exact absurd (h' ▸ hin) h''
            · exact ⟨h', h''⟩
          · tauto
        rw [hset]
      · simp only [runEntries, stepEntry_new hid hin, Option.toList,
          List.cons_append, List.nil_append, List.length_cons]
        rw [ih, List.filterMap_cons_some hid, List.toFinset_cons,
          sdiff_insert_not_mem hin]
        rw [Finset.card_insert_of_not_mem (by simp)]

theorem card_sdiff_union (A B s : Finset (List Char)) :
    (A \ s).card + (B \ (s ∪ A)).card = ((A ∪ B) \ s).card := by
  have hd : Disjoint (A \ s) (B \ (s ∪ A)) := by
    rw [Finset.disjoint_left]
    intro x hx hx2
    simp only [Finset.mem_sdiff, Finset.mem_union] at hx hx2
    tauto
  rw [← Finset.card_union_of_disjoint hd]
  congr 1
  ext x
  simp only [Finset.mem_union, Finset.mem_sdiff]
  tauto

theorem watchCycle_some_fst (st : WState) (f : Feed) :
    (watchCycle st (some f)).1 = { seen := st.seen ∪ feedIds f, initFlag := true } := by
  simp only [watchCycle, runEntries_seen_eq, feedIds]

theorem runCycles_true_len (cs : List (Option Feed)) : ∀ seen : Finset (List Char),
    (runCycles { seen := seen, initFlag := true } cs).2.length
      = (cyclesIds cs \ seen).card := by
  induction cs with
  | nil => intro seen; simp [runCycles, cyclesIds]
  | cons c cs ih =>
    intro seen
    cases c with
    | none =>
      simp only [runCycles, watchCycle, List.nil_append, cyclesIds]
      exact ih seen
    | some f =>
      simp only [runCycles, List.length_append, cyclesIds]
      rw [watchCycle_some_fst, ih]
      have hlen : (watchCycle { seen := seen, initFlag := true } (some f)).2.length
          = (feedIds f \ seen).card := by
        simp only [watchCycle, feedIds]
        exact runEntries_true_len f.entries seen
      rw [hlen, card_sdiff_union]

/-- Every identifier in the seen-set is a non-empty string. -/
def goodSeen (st : WState) : Prop := ∀ x ∈ st.seen, x ≠ []

theorem mem_filterMap_getId_ne_nil {es : List Entry} {x : List Char}
    (h : x ∈ (es.filterMap getId).toFinset) : x ≠ [] := by
  rw [List.mem_toFinset, List.mem_filterMap] at h
  obtain ⟨e, -, he⟩ := h
  exact getId_some_ne_nil he

theorem watchCycle_good {st : WState} {f : Option Feed} (h : goodSeen st) :
    goodSeen (watchCycle st f).1 := by
  cases f with
  | none => exact h
  | some f =>
    intro x hx
    rw [watchCycle_some_fst] at hx
    simp only [Finset.mem_union] at hx
    rcases hx with hx | hx
    · exact h x hx
    · exact mem_filterMap_getId_ne_nil hx

theorem runCycles_good (cs : List (Option Feed)) : ∀ st : WState, goodSeen st →
    goodSeen (runCycles st cs).1 := by
  induction cs with
  | nil => intro st h; exact h
  | cons c cs ih =>
    intro st h
    simp only [runCycles]
    exact ih _ (watchCycle_good h)

/-! ## The claims -/

/-- Sample entry with identifier "a", used by witnesses. -/
def entA : Entry := { eid := some ['a'], summary := none, updated := none, published := none }

/-- Sample entry with identifier "b", used by witnesses. -/
def entB : Entry := { eid := some ['b'], summary := none, updated := none, published := none }

theorem filterMap_getId_length {es : List Entry} (h : ∀ e ∈ es, getId e ≠ none) :
    (es.filterMap getId).length = es.length := by
  induction es with
  | nil => rfl
  | cons e es ih =>
    cases hid : getId e with
    | none => exact absurd hid (h e (List.mem_cons_self e es))
    | some i =>
      rw [List.filterMap_cons_some hid, List.length_cons, List.length_cons,
        ih fun e' he' => h e' (List.mem_cons_of_mem e he')]

/-- C1: on a Watcher's first successful fetch cycle with entries that all
bear an identifier, zero events are emitted, and afterwards the seen-set is
exactly the set of those identifiers and the initialized flag is true.  The
second conjunct records that, under the hypothesis, every entry contributes
its identifier. -/
theorem baseline_cycle (f : Feed) (h : ∀ e ∈ f.entries, getId e ≠ none) :
    watchCycle initState (some f)
      = ({ seen := (f.entries.filterMap getId).toFinset, initFlag := true }, [])
    ∧ (f.entries.filterMap getId).length = f.entries.length := by
  constructor
  · simp [watchCycle, initState, runEntries_baseline]
  · exact filterMap_getId_length h

/-- Witness for C1 at a concrete two-entry baseline feed. -/
theorem baseline_cycle_witness :
    watchCycle initState (some { bozo := false, entries := [entA, entB] })
      = ({ seen := ([entA, entB].filterMap getId).toFinset, initFlag := true }, [])
    ∧ ([entA, entB].filterMap getId).length = 2 :=
  baseline_cycle _ (by decide)

/-- C2: after initialization, an already-seen identifier is never emitted
again and leaves the state unchanged; a new identifier is emitted exactly
once, with the insertion into the seen-set part of the very same step; per
cycle and across any run of cycles the number of emitted events is exactly
the number of genuinely new identifiers. -/
theorem dedup_exactly_once :
    (∀ (seen : Finset (List Char)) (e : Entry) (i : List Char),
      getId e = some i → i ∈ seen → stepEntry true seen e = (seen, none))
    ∧ (∀ (seen : Finset (List Char)) (e : Entry) (i : List Char),
      getId e = some i → i ∉ seen →
      stepEntry true seen e = (insert i seen, some (mkEvent e))
        ∧ i ∈ (stepEntry true seen e).1)
    ∧ (∀ (seen : Finset (List Char)) (es : List Entry),
      (runEntries true seen es).2.length = ((es.filterMap getId).toFinset \ seen).card)
    ∧ (∀ (seen : Finset (List Char)) (cs : List (Option Feed)),
      (runCycles { seen := seen, initFlag := true } cs).2.length
        = (cyclesIds cs \ seen).card) := by
  refine ⟨?_, ?_, ?_, ?_⟩
  · intro seen e i h hin; exact stepEntry_seen h hin
  · intro seen e i h hout
    refine ⟨stepEntry_new h hout, ?_⟩
    rw [stepEntry_new h hout]
    exact Finset.mem_insert_self i seen
  · intro seen es; exact runEntries_true_len es seen
  · intro seen cs; exact runCycles_true_len cs seen

/-- Witness for C2: a re-presented identifier is silent, a fresh one emits. -/
theorem dedup_exactly_once_witness :
    stepEntry true {['a']} entA = ({['a']}, none)
    ∧ stepEntry true {['a']} entB = (insert ['b'] {['a']}, some (mkEvent entB)) :=
  ⟨dedup_exactly_once.1 _ _ ['a'] (by decide) (by decide),
   (dedup_exactly_once.2.1 _ _ ['b'] (by decide) (by decide)).1⟩

/-- C3: two transient failures then success yield exactly the backoff waits
5 and 10 seconds and the successful snapshot after three attempts; three
failures yield the unavailable result after exactly three attempts with the
same two waits.  The `Option` result of `fetch_feed` is the no-escaping-
exception contract. -/
theorem fetch_retry_backoff :
    (∀ (oracle : Nat → Except Unit Feed) (f : Feed),
      oracle 1 = .error () → oracle 2 = .error () → oracle 3 = .ok f →
      f.bozo = false → fetch_feed oracle = (some f, [5, 10], 3))
    ∧ (∀ oracle : Nat → Except Unit Feed,
      oracle 1 = .error () → oracle 2 = .error () → oracle 3 = .error () →
      fetch_feed oracle = (none, [5, 10], 3)) := by
  constructor
  · intro oracle f h1 h2 h3 hb
    simp [fetch_feed, MAX_RETRIES, RETRY_BACKOFF, fetchAux, h1, h2, h3, hb]
  · intro oracle h1 h2 h3
    simp [fetch_feed, MAX_RETRIES, RETRY_BACKOFF, fetchAux, h1, h2, h3]

/-- Witness for C3 at two concrete oracles. -/
theorem fetch_retry_backoff_witness :
    fetch_feed (fun a => if a = 3 then .ok { bozo := false, entries := [] }
        else .error ())
      = (some { bozo := false, entries := [] }, [5, 10], 3)
    ∧ fetch_feed (fun _ => .error ()) = (none, [5, 10], 3) :=
  ⟨fetch_retry_backoff.1 _ { bozo := false, entries := [] } rfl rfl rfl rfl,
   fetch_retry_backoff.2 _ rfl rfl rfl⟩

/-- C7: a successful parse flagged bozo on attempt `k` returns the
unavailable result immediately after exactly `k` attempts, with only the
backoff waits of the earlier failed attempts and none for the bozo one. -/
theorem fetch_bozo_no_retry :
    ∀ (oracle : Nat → Except Unit Feed) (f : Feed) (k : Nat),
      1 ≤ k → k ≤ 3 → (∀ j, 1 ≤ j → j < k → oracle j = .error ()) →
      oracle k = .ok f → f.bozo = true →
      fetch_feed oracle
        = (none, (List.range (k - 1)).map fun j => 5 * (j + 1), k) := by
  intro oracle f k hk1 hk3 herr hok hb
  interval_cases k
  · simp [fetch_feed, MAX_RETRIES, RETRY_BACKOFF, fetchAux, hok, hb]
  · have h1 := herr 1 (by norm_num) (by norm_num)
    simp [fetch_feed, MAX_RETRIES, RETRY_BACKOFF, fetchAux, h1, hok, hb,
      List.range_succ]
  · have h1 := herr 1 (by norm_num) (by norm_num)
    have h2 := herr 2 (by norm_num) (by norm_num)
    simp [fetch_feed, MAX_RETRIES, RETRY_BACKOFF, fetchAux, h1, h2, hok, hb,
      List.range_succ]

/-- Witness for C7: bozo on the first attempt, no wait, one attempt. -/
theorem fetch_bozo_no_retry_witness :
    fetch_feed (fun _ => .ok { bozo := true, entries := [] }) = (none, [], 1) :=
  fetch_bozo_no_retry _ { bozo := true, entries := [] } 1 (Nat.le_refl 1)
    (by norm_num)
    (fun j hj1 hj2 => absurd (Nat.lt_of_le_of_lt hj1 hj2) (Nat.lt_irrefl 1))
    rfl rfl

/-- C8: an unavailable cycle leaves the watcher state untouched and emits
nothing; inserting an unavailable cycle anywhere in a run changes neither
the final state nor the emitted events. -/
theorem unavailable_frame :
    (∀ st : WState, watchCycle st none = (st, []))
    ∧ (∀ (st : WState) (cs1 cs2 : List (Option Feed)),
      runCycles st (cs1 ++ none :: cs2) = runCycles st (cs1 ++ cs2)) := by
  constructor
  · intro st; rfl
  · intro st cs1 cs2
    induction cs1 generalizing st with
    | nil => simp [runCycles, watchCycle]
    | cons c cs1 ih =>
      simp only [List.cons_append, runCycles, List.append_eq]
      rw [ih]

/-- C9: the example summary reduces to its last non-empty line; an all-
whitespace summary yields the empty string; and in general prepending
earlier lines does not change the result when the later part still has a
non-blank line, i.e. the last non-blank line wins. -/
theorem status_line_extractor :
    extract_status_line ("Investigating issue\n\nMonitoring results\n".toList)
      = "Monitoring results".toList
    ∧ (∀ cs : List Char, (∀ c ∈ cs, pyWS c = true) → extract_status_line cs = [])
    ∧ (∀ a b : List Char,
        (((splitNL b).map pyStrip).filter fun l => !l.isEmpty) ≠ [] →
        extract_status_line (a ++ '\n' :: b) = extract_status_line b) := by
  refine ⟨by decide, ?_, ?_⟩
  · intro cs h; exact extract_status_line_all_ws h
  · intro a b h; exact extract_status_line_last h

/-- Witness for C9 at whitespace-only input and a two-part summary. -/
theorem status_line_extractor_witness :
    extract_status_line ("  \t ".toList) = []
    ∧ extract_status_line ("Investigating".toList ++ '\n' :: "Monitoring".toList)
        = extract_status_line ("Monitoring".toList) :=
  ⟨status_line_extractor.2.1 _ (by decide),
   status_line_extractor.2.2 _ _ (by decide)⟩

/-- C10: identifiers in the seen-set are never empty, from any state whose
seen-set already satisfies this, and in particular along any run from the
initial state. -/
theorem seen_nonempty_invariant :
    (∀ (st : WState) (cs : List (Option Feed)),
      goodSeen st → goodSeen (runCycles st cs).1)
    ∧ (∀ cs : List (Option Feed), goodSeen (runCycles initState cs).1) := by
  constructor
  · intro st cs h; exact runCycles_good cs st h
  · intro cs
    refine runCycles_good cs initState ?_
    intro x hx
    simp [initState] at hx

/-- Witness for C10 along a concrete two-cycle run. -/
theorem seen_nonempty_invariant_witness :
    goodSeen (runCycles { seen := {['a']}, initFlag := true }
      [some { bozo := false, entries := [entB] }, none]).1 :=
  seen_nonempty_invariant.1 _ _ (fun x hx => by
    rw [Finset.mem_singleton] at hx
    subst hx
    decide)

/-- C4 counterexample: on `"<a<b>>"` the output of `clean_html` is `"<a>"`,
which still matches the tag pattern, and stripping twice gives `""`, so the
claim fails as stated. -/
theorem clean_html_not_clean_cex :
    HasTagMatch (clean_html ("<a<b>>".toList))
    ∧ clean_html (clean_html ("<a<b>>".toList)) ≠ clean_html ("<a<b>>".toList) := by
  constructor
  · have h : clean_html ("<a<b>>".toList) = ['<', 'a', '>'] := by decide
    rw [h]
    exact ⟨[], ['a'], [], rfl, by decide, by decide⟩
  · decide

/-- C4 amended: on inputs whose every `<` opens a simple tag (a non-empty
body free of `<` and `>`, then `>`), the output of `clean_html` contains no
substring matching the tag pattern and stripping is idempotent. -/
theorem clean_html_simple_clean :
    ∀ l : List Char, simpleTags l = true →
      ¬ HasTagMatch (clean_html l) ∧ clean_html (clean_html l) = clean_html l := by
  intro l h
  exact ⟨fun hm => clean_html_no_lt h hm.lt_mem, clean_html_idem_of_simple h⟩

/-- Witness for the amended C4 on well-formed markup. -/
theorem clean_html_simple_clean_witness :
    ¬ HasTagMatch (clean_html ("<p>hi</p> there".toList))
    ∧ clean_html (clean_html ("<p>hi</p> there".toList))
        = clean_html ("<p>hi</p> there".toList) :=
  clean_html_simple_clean _ (by decide)

/-- C5 counterexample: for `"<li><b></b></li>"` the raw item `"<b></b>"` is
non-blank, so it passes the filter, but stripping its tags leaves the empty
string — the returned sequence contains `""`. -/
theorem extract_components_empty_cex :
    extract_components ("<li><b></b></li>".toList) = [[]]
    ∧ [] ∈ extract_components ("<li><b></b></li>".toList) := by
  exact ⟨by decide, by decide⟩

/-- C5 amended: the sequence preserves order of appearance without
deduplication and empty input or input without list-item matches yields the
empty sequence; but an output string may be empty when the matched item
consists solely of markup. -/
theorem extract_components_amended :
    (∀ l : List Char, '<' ∉ l → extract_components l = [])
    ∧ extract_components [] = []
    ∧ extract_components ("<ul><li>API</li><li>ChatGPT <b>Web</b></li></ul>".toList)
        = ["API".toList, "ChatGPT Web".toList]
    ∧ extract_components ("<ul><li>API</li><li>Web</li><li>API</li></ul>".toList)
        = ["API".toList, "Web".toList, "API".toList] := by
  refine ⟨?_, by decide, by decide, by decide⟩
  intro l h
  exact extract_components_of_no_lt h

/-- Witness for the amended C5 on markup-free input. -/
theorem extract_components_amended_witness :
    extract_components ("no markup here".toList) = [] :=
  extract_components_amended.1 _ (by decide)

/-- C6 counterexample: on `"<a<b>>"` the per-item transform of
`extract_components` yields `">"` while `clean_html` yields `"<a>"` — the
two tag-removal transforms are not extensionally equal. -/
theorem component_strip_ne_clean_html_cex :
    pyStrip (stripTags2 ("<a<b>>".toList)) ≠ clean_html ("<a<b>>".toList) := by
  decide

/-- C6 amended: on inputs whose every `<` opens a simple tag, the per-item
transform of `extract_components` agrees with `clean_html`. -/
theorem component_strip_eq_clean_html_simple :
    ∀ l : List Char, simpleTags l = true →
      pyStrip (stripTags2 l) = clean_html l := by
  intro l h
  unfold clean_html
  rw [simpleTags_strip_eq h]

/-- Witness for the amended C6 on a well-formed list item. -/
theorem component_strip_eq_clean_html_simple_witness :
    pyStrip (stripTags2 ("<li>API</li>".toList))
      = clean_html ("<li>API</li>".toList) :=
  component_strip_eq_clean_html_simple _ (by decide)

end Tracker
